import Mathlib

/-!
Verification development for the rune-arrow detection pipeline in `src/main.py`.

The program drives a pretrained object-detection model over screen captures,
merges two detection passes (upright and 90°-rotated) into an ordered sequence
of arrow directions, and serves the result to a client over a named pipe.

Modelling choices (shallow embedding):

* The detection model, the screen capture source and the cv2 colour/edge
  filters are external collaborators; they are parameters of the embedded
  functions (`Model`, and `Img → Img` parameters for `filter_color`/`canny`).
* Images are `Img`: a height, a width and a total pixel function, standing for
  a numpy array of shape `(height, width, 3)`.
* Scores and normalized box coordinates (numpy floats in the source) are
  embedded as rationals; every operation performed on them by the program is
  order comparison, multiplication by an integer dimension, and rounding, all
  of which are exact on the values of interest.
* Python's `list.sort(key=...)` is a stable sort with respect to the total
  preorder induced by the key.  A stable sort has a unique result, so it is
  embedded by `List.insertionSort` with the corresponding stays-before
  relation, which Mathlib proves (and we check on examples) to be stable.
* Fallible operations (the `label_map[...]` dictionary lookups, which raise
  `KeyError` in Python) are embedded in the `Option` monad; `none` models an
  uncaught exception.
-/

namespace MSbot

/-- One RGB pixel value, as a triple of channel values. -/
abbrev Pixel := ℕ × ℕ × ℕ

/-- The black fill value `(0, 0, 0)` used for padding. -/
def blackPixel : Pixel := (0, 0, 0)

/-- A numpy image of shape `(height, width, 3)`: `pix r c` is the pixel at
row `r`, column `c`. -/
structure Img where
  height : ℕ
  width : ℕ
  pix : ℕ → ℕ → Pixel

/-- A detection bounding box `(yMin, xMin, yMax, xMax)` in coordinates
normalized to `[0, 1]`, as produced by the model. -/
structure Box where
  yMin : ℚ
  xMin : ℚ
  yMax : ℚ
  xMax : ℚ
deriving DecidableEq

/-- One `(score, box, classId)` triple of the zipped model output
(`detection_scores`, `detection_boxes`, `detection_classes`); the class id is
an `int64` in the source. -/
structure Det where
  score : ℚ
  box : Box
  cls : ℤ
deriving DecidableEq

/-- The external detection model as an oracle: `run_inference_for_single_image`
followed by zipping scores, boxes and classes (src/main.py lines 82-85) yields
a list of triples; its contents are unconstrained. -/
abbrev Model := Img → List Det

/-- Resolution of one Python/numpy slice endpoint on an axis of length `n`:
a negative index counts from the end, and endpoints are clamped into
`[0, n]`. -/
def sliceIdx (n : ℕ) (i : ℤ) : ℕ :=
  if i < 0 then ((n : ℤ) + i).toNat else min i.toNat n

/-- The numpy crop `img[top:bottom, left:right]` (used at src/main.py lines
127 and 143). -/
def cropImg (img : Img) (top bottom left right : ℤ) : Img :=
  let t := sliceIdx img.height top
  let b := sliceIdx img.height bottom
  let l := sliceIdx img.width left
  let r := sliceIdx img.width right
  ⟨b - t, r - l, fun i j => img.pix (t + i) (l + j)⟩

/-- cv2.rotate with ROTATE_90_COUNTERCLOCKWISE (src/main.py line 161): the
result has transposed dimensions and `dst[i][j] = src[j][w - 1 - i]`. -/
def rotate90ccw (img : Img) : Img :=
  ⟨img.width, img.height, fun i j => img.pix j (img.width - 1 - i)⟩

/-- Python `min` over a list of rationals; the single call site guards the
list to be nonempty (four boxes), so the default for `[]` is never used. -/
def listMin : List ℚ → ℚ
  | [] => 0
  | x :: xs => xs.foldl min x

/-- Python `max` over a list of rationals; the single call site guards the
list to be nonempty (four boxes), so the default for `[]` is never used. -/
def listMax : List ℚ → ℚ
  | [] => 0
  | x :: xs => xs.foldl max x

/-- Python `round` (banker's rounding, half to even) applied to an exact
rational, composed with `int(...)` (src/main.py lines 139-142). -/
def pyRound (q : ℚ) : ℤ :=
  let f := Int.floor q
  if q - f < mkRat 1 2 then f
  else if mkRat 1 2 < q - f then f + 1
  else if f % 2 = 0 then f else f + 1

/-- Sort order used by `sort_by_confidence`: `a` may stay before `b` when
`b.score ≤ a.score` (stable descending score sort,
`pruned.sort(key=lambda x: x[0], reverse=True)`). -/
def scoreGe (a b : Det) : Prop := b.score ≤ a.score

instance : DecidableRel scoreGe :=
  fun a b => inferInstanceAs (Decidable (b.score ≤ a.score))

instance : IsTotal Det scoreGe := ⟨fun a b => le_total b.score a.score⟩

instance : IsTrans Det scoreGe := ⟨fun _ _ _ hab hbc => le_trans hbc hab⟩

/-- Sort order of the upright pass: ascending `xMin`
(`lst.sort(key=lambda x: x[1][1])`, src/main.py line 157). -/
def xMinLe (a b : Det) : Prop := a.box.xMin ≤ b.box.xMin

instance : DecidableRel xMinLe :=
  fun a b => inferInstanceAs (Decidable (a.box.xMin ≤ b.box.xMin))

instance : IsTotal Det xMinLe := ⟨fun a b => le_total a.box.xMin b.box.xMin⟩

instance : IsTrans Det xMinLe := ⟨fun _ _ _ hab hbc => le_trans hab hbc⟩

/-- Sort order of the rotated pass: descending `yMax`
(`lst.sort(key=lambda x: x[1][2], reverse=True)`, src/main.py line 163). -/
def yMaxGe (a b : Det) : Prop := b.box.yMax ≤ a.box.yMax

instance : DecidableRel yMaxGe :=
  fun a b => inferInstanceAs (Decidable (b.box.yMax ≤ a.box.yMax))

instance : IsTotal Det yMaxGe := ⟨fun a b => le_total b.box.yMax a.box.yMax⟩

instance : IsTrans Det yMaxGe := ⟨fun _ _ _ hab hbc => le_trans hbc hab⟩

/-- Box Locator, src/main.py lines 74-89: run the model once, discard triples
with score ≤ 0.5 (`mkRat 1 2` is 0.5), stable-sort the rest descending by
score, keep at most the first 4. -/
def sort_by_confidence (model : Model) (image : Img) : List Det :=
  let zipped := model image
  let pruned := zipped.filter (fun t => decide (mkRat 1 2 < t.score))
  let sorted := pruned.insertionSort scoreGe
  sorted.take 4

/-- src/main.py lines 92-108: the same prune/sort/truncate logic duplicated,
then projected to the `(box, classId)` components (`t[1:]`). -/
def get_boxes (model : Model) (image : Img) : List (Box × ℤ) :=
  let zipped := model image
  let pruned := zipped.filter (fun t => decide (mkRat 1 2 < t.score))
  let sorted := pruned.insertionSort scoreGe
  let kept := sorted.take 4
  kept.map (fun t => (t.box, t.cls))

/-- The dictionary `label_map = {1: 'up', 2: 'down', 3: 'left', 4: 'right'}`
(src/main.py line 121); a lookup outside the domain raises `KeyError`,
modelled by `none`. -/
def label_map (c : ℤ) : Option String :=
  if c = 1 then some "up"
  else if c = 2 then some "down"
  else if c = 3 then some "left"
  else if c = 4 then some "right"
  else none

/-- The dictionary `converter = {'up': 'right', 'down': 'left'}` used for the
rotated inferences (src/main.py line 122). -/
def converter (s : String) : Option String :=
  if s = "up" then some "right"
  else if s = "down" then some "left"
  else none

/-- The comprehension `[label_map[item[2]] for item in lst]` of the upright
pass (src/main.py line 158): a `label_map` lookup is performed for every
element, so one out-of-domain class id raises. -/
def classesOf : List Det → Option (List String)
  | [] => some []
  | d :: ds => do
    let l ← label_map d.cls
    let rest ← classesOf ds
    pure (l :: rest)

/-- The comprehension
`[converter[label_map[item[2]]] for item in lst if item[2] in [1, 2]]`
(src/main.py lines 164-166).  The filter clause is evaluated before the
lookups, so elements with class id outside {1, 2} perform no lookup at
all. -/
def rotatedClassesOf : List Det → Option (List String)
  | [] => some []
  | d :: ds =>
    if d.cls = 1 ∨ d.cls = 2 then do
      let l ← label_map d.cls
      let c ← converter l
      let rest ← rotatedClassesOf ds
      pure (c :: rest)
    else rotatedClassesOf ds

/-- The reconciliation loop (src/main.py lines 169-171):

    for i in range(len(classes)):
        if rotated_classes and classes[i] in ['left', 'right']:
            classes[i] = rotated_classes.pop(0)

Positions are visited left to right; a position holding `left` or `right` is
overwritten with the next unconsumed rotated label while any remain. -/
def reconcile : List String → List String → List String
  | [], _ => []
  | c :: cs, [] => c :: reconcile cs []
  | c :: cs, r :: rs =>
    if c = "left" ∨ c = "right" then r :: reconcile cs rs
    else c :: reconcile cs (r :: rs)

/-- Region extraction and filtering, src/main.py lines 126-129: crop the fixed
sub-rectangle `image[120:height//2, width//4:3*width//4]`, then apply the
external colour filter and Canny edge filter (parameters `fc` and `cn`). -/
def canniedOf (fc cn : Img → Img) (image : Img) : Img :=
  let cropped := cropImg image 120 ((image.height / 2 : ℕ) : ℤ)
    ((image.width / 4 : ℕ) : ℤ) ((3 * image.width / 4 : ℕ) : ℤ)
  cn (fc cropped)

/-- Rune-box isolation, src/main.py lines 135-143: the enclosing rectangle of
the located boxes, converted to pixel units with `int(round(...))`, cropped
out of the cannied image. -/
def runeBoxOf (model : Model) (cannied : Img) : Img :=
  let boxes := get_boxes model cannied
  let height := cannied.height
  let width := cannied.width
  let y_mins := boxes.map (fun b => b.1.yMin)
  let x_mins := boxes.map (fun b => b.1.xMin)
  let y_maxes := boxes.map (fun b => b.1.yMax)
  let x_maxes := boxes.map (fun b => b.1.xMax)
  let left := pyRound (listMin x_mins * (width : ℚ))
  let right := pyRound (listMax x_maxes * (width : ℚ))
  let top := pyRound (listMin y_mins * (height : ℚ))
  let bottom := pyRound (listMax y_maxes * (height : ℚ))
  cropImg cannied top bottom left right

/-- Canvas Normalizer, src/main.py lines 146-153: a zero-filled 455×384
canvas; when both centering offsets (floor-divided by 2, as Python `//`) are
strictly positive the rune box is written at that offset, otherwise the
canvas stays black.  The resulting pixel function is exactly the array after
the conditional slice assignment. -/
def padCanvas (runeBox : Img) : Img :=
  let x_offset : ℤ := Int.fdiv (455 - (runeBox.width : ℤ)) 2
  let y_offset : ℤ := Int.fdiv (384 - (runeBox.height : ℤ)) 2
  ⟨384, 455, fun i j =>
    if 0 < x_offset ∧ 0 < y_offset ∧
        y_offset.toNat ≤ i ∧ i < y_offset.toNat + runeBox.height ∧
        x_offset.toNat ≤ j ∧ j < x_offset.toNat + runeBox.width then
      runeBox.pix (i - y_offset.toNat) (j - x_offset.toNat)
    else blackPixel⟩

/-- The normalized canvas fed to both second-stage detection passes. -/
def preprocessedOf (model : Model) (cannied : Img) : Img :=
  padCanvas (runeBoxOf model cannied)

/-- Stable ascending sort by `xMin` (src/main.py line 157). -/
def sortXMinAsc (l : List Det) : List Det := l.insertionSort xMinLe

/-- Stable descending sort by `yMax` (src/main.py line 163). -/
def sortYMaxDesc (l : List Det) : List Det := l.insertionSort yMaxGe

/-- Orientation Merger, src/main.py lines 110-173 (body of
`merge_detection`, without the `run_if_enabled` decorator): locate the four
arrows, normalize the canvas, run the upright and rotated passes, and
reconcile.  `none` models an uncaught `KeyError` from `label_map`. -/
def merge_detection (fc cn : Img → Img) (model : Model) (image : Img) :
    Option (List String) :=
  let cannied := canniedOf fc cn image
  let boxes := get_boxes model cannied
  if boxes.length = 4 then
    let preprocessed := preprocessedOf model cannied
    let lst1 := sortXMinAsc (sort_by_confidence model preprocessed)
    match classesOf lst1 with
    | none => none
    | some classes =>
      let rotated := rotate90ccw preprocessed
      let lst2 := sortYMaxDesc (sort_by_confidence model rotated)
      match rotatedClassesOf lst2 with
      | none => none
      | some rotated_classes => some (reconcile classes rotated_classes)
  else some []

/-- Modelled from the spec: the decorator `utils.run_if_enabled` and the flag
`config.enabled` live in `src/common`, which is not among the provided
sources.  Per the spec (§6, "Feature toggle"), when the process-wide boolean
is false the Orientation Merger short-circuits to an empty ArrowSequence
without invoking the model. -/
def merge_detection_enabled (enabled : Bool) (fc cn : Img → Img)
    (model : Model) (image : Img) : Option (List String) :=
  if enabled then merge_detection fc cn model image else some []

/-- Python `arrow[0]`: the first character of a label string; raises
`IndexError` on an empty string, modelled by `none`. -/
def firstChar (s : String) : Option Char := s.data.head?

/-- The response line built at src/main.py lines 242-248: the concatenation of
the first characters of the four labels when exactly four arrows were
detected, the literal sentinel `err` otherwise. -/
def responseLine (arrows : List String) : Option String :=
  if arrows.length = 4 then
    (arrows.mapM firstChar).map (fun cs => String.mk cs)
  else some "err"

/-- The two framed messages written per session (src/main.py lines 251-252):
the response line, then the fixed closing marker; the channel is closed right
after. -/
def sessionMessages (arrows : List String) : Option (List String) :=
  (responseLine arrows).map (fun line1 => [line1, "Closing connection"])

/-- The bound `max_attempts = 100` of the retry loop (src/main.py
line 221). -/
def max_attempts : ℕ := 100

/-- The Detecting retry loop (src/main.py lines 223-238), abstracted over the
outcome of each capture/detect cycle (`att n` is the ArrowSequence produced
by cycle `n`): returns the index of the last executed cycle.  `remaining`
is `max_attempts - current_attempts`; the loop body breaks on a length-4
result, and otherwise retries only while `current_attempts < max_attempts`. -/
def detectLoop (att : ℕ → List String) : ℕ → ℕ → ℕ
  | idx, 0 => idx
  | idx, r + 1 =>
    if (att idx).length = 4 then idx else detectLoop att (idx + 1) r

/-- Index of the last capture/detect cycle of one session (cycles are numbered
from 0, so `sessionStopIndex att + 1` cycles are executed). -/
def sessionStopIndex (att : ℕ → List String) : ℕ := detectLoop att 0 max_attempts

/-- The ArrowSequence held in `arrows` when the retry loop exits: whatever the
last executed cycle produced. -/
def sessionArrows (att : ℕ → List String) : List String :=
  att (sessionStopIndex att)

/-- The sublist of ambiguous (left/right) labels of an upright sequence, in
order; used to state the reconciliation property. -/
def ambiguousOf (cs : List String) : List String :=
  cs.filter (fun c => decide (c = "left" ∨ c = "right"))

/-- The upright-pass detection list of one merge invocation: the Box Locator
output on the normalized canvas, stable-sorted ascending by `xMin`. -/
def upLstOf (fc cn : Img → Img) (model : Model) (image : Img) : List Det :=
  sortXMinAsc (sort_by_confidence model (preprocessedOf model (canniedOf fc cn image)))

/-- The rotated-pass detection list of one merge invocation: the Box Locator
output on the rotated canvas, stable-sorted descending by `yMax`. -/
def rotLstOf (fc cn : Img → Img) (model : Model) (image : Img) : List Det :=
  sortYMaxDesc (sort_by_confidence model (rotate90ccw (preprocessedOf model (canniedOf fc cn image))))

/-- A box spanning the whole normalized frame. -/
def box01 : Box := ⟨0, 0, 1, 1⟩

/-- A full-height box whose left edge sits at `x`, used to control the
reading-order sort in concrete runs. -/
def boxX (x : ℚ) : Box := ⟨0, x, 1, 1⟩

/-- A concrete black 500×500 capture frame for concrete runs: the region crop
`[120:250, 125:375]` of it has height 130 and width 250, distinct from the
canvas dimensions, so an oracle can tell the pipeline stages apart. -/
def cexImg : Img := ⟨500, 500, fun _ _ => blackPixel⟩

/-- A concrete model oracle under which the coarse pass finds four confident
boxes but the upright canvas pass finds only two detections (both class 1);
the rotated pass finds none. -/
def cexModel1 : Model := fun img =>
  if img.height = 130 then
    [⟨1, box01, 1⟩, ⟨1, box01, 1⟩, ⟨1, box01, 1⟩, ⟨1, box01, 1⟩]
  else if img.height = 384 then
    [⟨1, boxX 0, 1⟩, ⟨1, boxX 1, 1⟩]
  else []

/-- A concrete model oracle under which the coarse pass finds four boxes, the
upright canvas pass finds four detections of classes 1-4, and the rotated
pass finds one detection whose class id 7 is outside the label map. -/
def cexModel2 : Model := fun img =>
  if img.height = 130 then
    [⟨1, box01, 1⟩, ⟨1, box01, 1⟩, ⟨1, box01, 1⟩, ⟨1, box01, 1⟩]
  else if img.height = 384 then
    [⟨1, boxX 0, 1⟩, ⟨1, boxX 1, 2⟩, ⟨1, boxX 2, 3⟩, ⟨1, boxX 3, 4⟩]
  else if img.height = 455 then
    [⟨1, box01, 7⟩]
  else []

/-- A concrete model oracle returning two detections with equal scores, for
exercising the score sort on a tie. -/
def cexModelTie : Model := fun _ => [⟨1, boxX 0, 1⟩, ⟨1, boxX 1, 2⟩]

/-- A concrete rune box small enough that both centering offsets are
strictly positive. -/
def padWitnessImg : Img := ⟨100, 100, fun _ _ => (5, 5, 5)⟩

/-- A concrete cycle-outcome stream whose third cycle (index 2) is the first
to produce four arrows. -/
def attWitness : ℕ → List String :=
  fun n => if n = 2 then ["up", "up", "up", "up"] else []

/-! ## Helper lemmas -/

theorem reconcile_nil_right : ∀ cs : List String, reconcile cs [] = cs
  | [] => rfl
  | c :: cs => by rw [reconcile, reconcile_nil_right]

theorem reconcile_length : ∀ (cs : List String) (rot : List String),
    (reconcile cs rot).length = cs.length := by
  intro cs
  induction cs with
  | nil => intro rot; cases rot <;> rfl
  | cons c cs ih =>
    intro rot
    cases rot with
    | nil => rw [reconcile_nil_right]
    | cons r rs =>
      by_cases hc : c = "left" ∨ c = "right"
      · rw [reconcile, if_pos hc]; simp [ih]
      · rw [reconcile, if_neg hc]; simp [ih]

theorem reconcile_get_of_not_amb : ∀ (cs rot : List String) (i : ℕ),
    ¬(cs[i]? = some "left" ∨ cs[i]? = some "right") →
    (reconcile cs rot)[i]? = cs[i]? := by
  intro cs
  induction cs with
  | nil => intro rot i h; cases rot <;> rfl
  | cons c cs ih =>
    intro rot i h
    cases rot with
    | nil => rw [reconcile_nil_right]
    | cons r rs =>
      by_cases hc : c = "left" ∨ c = "right"
      · cases i with
        | zero =>
          exact absurd (hc.imp (fun e => by simp [e]) (fun e => by simp [e])) h
        | succ i =>
          rw [reconcile, if_pos hc]
          simpa using ih rs i (by simpa using h)
      · cases i with
        | zero => rw [reconcile, if_neg hc]; simp
        | succ i =>
          rw [reconcile, if_neg hc]
          simpa using ih (r :: rs) i (by simpa using h)

theorem zip_self_filter_amb (cs : List String) :
    ((cs.zip cs).filter (fun p => decide (p.1 = "left" ∨ p.1 = "right"))).map
      Prod.snd = ambiguousOf cs := by
  induction cs with
  | nil => rfl
  | cons c cs ih =>
    by_cases hc : c = "left" ∨ c = "right" <;>
      simp [ambiguousOf, List.filter_cons, hc, ih] <;>
      simpa [ambiguousOf] using ih

theorem reconcile_amb_values : ∀ (cs rot : List String),
    ((cs.zip (reconcile cs rot)).filter
        (fun p => decide (p.1 = "left" ∨ p.1 = "right"))).map Prod.snd
      = rot.take (ambiguousOf cs).length
        ++ (ambiguousOf cs).drop (min rot.length (ambiguousOf cs).length) := by
  intro cs
  induction cs with
  | nil => intro rot; simp [reconcile, ambiguousOf]
  | cons c cs ih =>
    intro rot
    cases rot with
    | nil =>
      rw [reconcile_nil_right]
      simpa using zip_self_filter_amb (c :: cs)
    | cons r rs =>
      by_cases hc : c = "left" ∨ c = "right"
      · rw [reconcile, if_pos hc]
        have ih2 := ih rs
        simp [ambiguousOf, List.filter_cons, hc, Nat.succ_min_succ] at ih2 ⊢
        exact ih2
      · rw [reconcile, if_neg hc]
        simpa [ambiguousOf, List.filter_cons, hc] using ih (r :: rs)

theorem reconcile_get_amb : ∀ (cs rot : List String),
    (∀ r ∈ rot, r = "left" ∨ r = "right") → ∀ i : ℕ,
    (cs[i]? = some "left" ∨ cs[i]? = some "right") →
    ((reconcile cs rot)[i]? = some "left" ∨ (reconcile cs rot)[i]? = some "right") := by
  intro cs
  induction cs with
  | nil => intro rot hrot i h; simp at h
  | cons c cs ih =>
    intro rot hrot i h
    cases rot with
    | nil => rw [reconcile_nil_right]; exact h
    | cons r rs =>
      by_cases hc : c = "left" ∨ c = "right"
      · cases i with
        | zero =>
          rw [reconcile, if_pos hc]
          rcases hrot r (by simp) with hr | hr <;> simp [hr]
        | succ i =>
          rw [reconcile, if_pos hc]
          simpa using ih rs (fun x hx => hrot x (by simp [hx])) i (by simpa using h)
      · cases i with
        | zero =>
          have hcl : (c :: cs)[0]? = some c := by simp
          rw [hcl] at h
          have hcc : c = "left" ∨ c = "right" := by
            rcases h with h | h
            · exact Or.inl (Option.some.inj h)
            · exact Or.inr (Option.some.inj h)
          exact absurd hcc hc
        | succ i =>
          rw [reconcile, if_neg hc]
          simpa using ih (r :: rs) hrot i (by simpa using h)

theorem reconcile_mem : ∀ (cs rot : List String) (s : String),
    s ∈ reconcile cs rot → s ∈ cs ∨ s ∈ rot := by
  intro cs
  induction cs with
  | nil => intro rot s h; simp [reconcile] at h
  | cons c cs ih =>
    intro rot s h
    cases rot with
    | nil => rw [reconcile_nil_right] at h; exact Or.inl h
    | cons r rs =>
      by_cases hc : c = "left" ∨ c = "right"
      · rw [reconcile, if_pos hc, List.mem_cons] at h
        rcases h with h | h
        · exact Or.inr (by simp [h])
        · rcases ih rs s h with h2 | h2
          · exact Or.inl (by simp [h2])
          · exact Or.inr (by simp [h2])
      · rw [reconcile, if_neg hc, List.mem_cons] at h
        rcases h with h | h
        · exact Or.inl (by simp [h])
        · rcases ih (r :: rs) s h with h2 | h2
          · exact Or.inl (by simp [h2])
          · exact Or.inr h2

theorem label_map_mem {c : ℤ} {s : String} (h : label_map c = some s) :
    s = "up" ∨ s = "down" ∨ s = "left" ∨ s = "right" := by
  unfold label_map at h
  split_ifs at h <;> simp_all

theorem classesOf_length : ∀ (l : List Det) (cs : List String),
    classesOf l = some cs → cs.length = l.length := by
  intro l
  induction l with
  | nil => intro cs h; simp [classesOf] at h; simp [← h]
  | cons d ds ih =>
    intro cs h
    rw [classesOf] at h
    cases h1 : label_map d.cls with
    | none => rw [h1] at h; simp at h
    | some s =>
      rw [h1] at h
      cases h2 : classesOf ds with
      | none => rw [h2] at h; simp at h
      | some rest =>
        rw [h2] at h
        simp at h
        rw [← h]
        simp [ih rest h2]

theorem classesOf_none_iff : ∀ l : List Det,
    classesOf l = none ↔ ∃ d ∈ l, label_map d.cls = none := by
  intro l
  induction l with
  | nil => simp [classesOf]
  | cons d ds ih =>
    rw [classesOf]
    cases h1 : label_map d.cls with
    | none => simp [Option.bind]; exact Or.inl h1
    | some s =>
      cases h2 : classesOf ds with
      | none =>
        simp only [Option.bind_eq_bind, Option.some_bind, Option.none_bind]
        simp only [h2] at ih ⊢
        simp [List.mem_cons]
        exact Or.inr (ih.mp trivial)
      | some rest =>
        simp only [Option.bind_eq_bind, Option.some_bind, h2]
        simp only [h2] at ih
        simp [List.mem_cons, h1]
        intro x hx hlm
        have : (∃ d ∈ ds, label_map d.cls = none) := ⟨x, hx, hlm⟩
        rw [← ih] at this
        exact absurd this (by simp)

theorem classesOf_mem : ∀ (l : List Det) (cs : List String),
    classesOf l = some cs → ∀ s ∈ cs,
    s = "up" ∨ s = "down" ∨ s = "left" ∨ s = "right" := by
  intro l
  induction l with
  | nil =>
    intro cs h s hs
    rw [classesOf] at h
    rw [← Option.some_inj.mp h] at hs
    simp at hs
  | cons d ds ih =>
    intro cs h s hs
    rw [classesOf] at h
    cases h1 : label_map d.cls with
    | none => rw [h1] at h; simp at h
    | some lb =>
      rw [h1] at h
      cases h2 : classesOf ds with
      | none => rw [h2] at h; simp at h
      | some rest =>
        rw [h2] at h
        simp at h
        rw [← h] at hs
        rcases List.mem_cons.mp hs with hs | hs
        · rw [hs]; exact label_map_mem h1
        · exact ih rest h2 s hs

theorem rotatedClassesOf_eq : ∀ l : List Det,
    rotatedClassesOf l =
      some ((l.filter (fun d => decide (d.cls = 1 ∨ d.cls = 2))).map
        (fun d => if d.cls = 1 then "right" else "left")) := by
  intro l
  induction l with
  | nil => rfl
  | cons d ds ih =>
    by_cases h : d.cls = 1 ∨ d.cls = 2
    · rw [rotatedClassesOf, if_pos h]
      rcases h with h1 | h2
      · simp [label_map, converter, h1, List.filter_cons, ih]
      · by_cases h1 : d.cls = 1
        · rw [h1] at h2; norm_num at h2
        · simp [label_map, converter, h1, h2, List.filter_cons, ih]
    · rw [rotatedClassesOf, if_neg h]
      simp [List.filter_cons, h, ih]

theorem rotatedClassesOf_ne_none (l : List Det) : rotatedClassesOf l ≠ none := by
  rw [rotatedClassesOf_eq]
  simp

theorem rotatedClassesOf_mem (l : List Det) (rcs : List String)
    (h : rotatedClassesOf l = some rcs) :
    ∀ s ∈ rcs, s = "left" ∨ s = "right" := by
  rw [rotatedClassesOf_eq] at h
  intro s hs
  rw [← Option.some_inj.mp h] at hs
  rcases List.mem_map.mp hs with ⟨d, _, hd⟩
  by_cases h1 : d.cls = 1
  · rw [← hd]; simp [h1]
  · rw [← hd]; simp [h1]

theorem sort_by_confidence_mem_score (model : Model) (image : Img) :
    ∀ d ∈ sort_by_confidence model image, mkRat 1 2 < d.score := by
  intro d hd
  have h1 : d ∈ ((model image).filter
      (fun t => decide (mkRat 1 2 < t.score))).insertionSort scoreGe :=
    List.mem_of_mem_take hd
  have h2 := (List.mem_insertionSort scoreGe).mp h1
  exact of_decide_eq_true (List.mem_filter.mp h2).2

theorem sort_by_confidence_length_le (model : Model) (image : Img) :
    (sort_by_confidence model image).length ≤ 4 := by
  rw [sort_by_confidence]
  simp only [List.length_take]
  exact min_le_left _ _

theorem sort_by_confidence_pairwise (model : Model) (image : Img) :
    (sort_by_confidence model image).Pairwise scoreGe :=
  List.Pairwise.sublist (List.take_sublist 4 _)
    (List.sorted_insertionSort scoreGe _)

theorem detectLoop_spec (att : ℕ → List String) : ∀ (r idx : ℕ),
    idx ≤ detectLoop att idx r ∧ detectLoop att idx r ≤ idx + r ∧
    (∀ m, idx ≤ m → m < detectLoop att idx r → (att m).length ≠ 4) ∧
    ((att (detectLoop att idx r)).length = 4 ∨ detectLoop att idx r = idx + r) := by
  intro r
  induction r with
  | zero =>
    intro idx
    refine ⟨le_refl _, by simp [detectLoop], ?_, Or.inr (by simp [detectLoop])⟩
    intro m h1 h2
    rw [detectLoop] at h2
    omega
  | succ r ih =>
    intro idx
    by_cases h : (att idx).length = 4
    · rw [detectLoop, if_pos h]
      exact ⟨le_refl _, by omega, fun m h1 h2 => by omega, Or.inl h⟩
    · rw [detectLoop, if_neg h]
      obtain ⟨ih1, ih2, ih3, ih4⟩ := ih (idx + 1)
      refine ⟨by omega, by omega, ?_, by omega⟩
      intro m h1 h2
      rcases Nat.eq_or_lt_of_le h1 with h1 | h1
      · rw [← h1]; exact h
      · exact ih3 m h1 h2

theorem merge_detection_of_boxes_ne (fc cn : Img → Img) (model : Model)
    (image : Img) (h : ¬(get_boxes model (canniedOf fc cn image)).length = 4) :
    merge_detection fc cn model image = some [] := by
  rw [merge_detection]
  simp only [if_neg h]

theorem merge_detection_none_of (fc cn : Img → Img) (model : Model)
    (image : Img) (hb : (get_boxes model (canniedOf fc cn image)).length = 4)
    (hc : classesOf (upLstOf fc cn model image) = none) :
    merge_detection fc cn model image = none := by
  rw [merge_detection]
  simp only [if_pos hb]
  rw [show sortXMinAsc (sort_by_confidence model
      (preprocessedOf model (canniedOf fc cn image))) = upLstOf fc cn model image from rfl]
  rw [hc]

theorem merge_detection_some_eq (fc cn : Img → Img) (model : Model)
    (image : Img) (classes rcs : List String)
    (hb : (get_boxes model (canniedOf fc cn image)).length = 4)
    (hc : classesOf (upLstOf fc cn model image) = some classes)
    (hr : rotatedClassesOf (rotLstOf fc cn model image) = some rcs) :
    merge_detection fc cn model image = some (reconcile classes rcs) := by
  rw [merge_detection]
  simp only [if_pos hb]
  rw [show sortXMinAsc (sort_by_confidence model
      (preprocessedOf model (canniedOf fc cn image))) = upLstOf fc cn model image from rfl]
  rw [hc]
  rw [show sortYMaxDesc (sort_by_confidence model
      (rotate90ccw (preprocessedOf model (canniedOf fc cn image))))
    = rotLstOf fc cn model image from rfl]
  rw [hr]

theorem merge_detection_none_iff (fc cn : Img → Img) (model : Model)
    (image : Img) :
    merge_detection fc cn model image = none ↔
      ((get_boxes model (canniedOf fc cn image)).length = 4 ∧
        classesOf (upLstOf fc cn model image) = none) := by
  constructor
  · intro h
    by_cases hb : (get_boxes model (canniedOf fc cn image)).length = 4
    · refine ⟨hb, ?_⟩
      cases hc : classesOf (upLstOf fc cn model image) with
      | none => rfl
      | some classes =>
        cases hr : rotatedClassesOf (rotLstOf fc cn model image) with
        | none => exact absurd hr (rotatedClassesOf_ne_none _)
        | some rcs =>
          rw [merge_detection_some_eq fc cn model image classes rcs hb hc hr] at h
          simp at h
    · rw [merge_detection_of_boxes_ne fc cn model image hb] at h
      simp at h
  · intro ⟨hb, hc⟩
    exact merge_detection_none_of fc cn model image hb hc

theorem merge_detection_some_inv (fc cn : Img → Img) (model : Model)
    (image : Img) (out : List String)
    (h : merge_detection fc cn model image = some out) :
    (¬(get_boxes model (canniedOf fc cn image)).length = 4 ∧ out = []) ∨
    (∃ classes rcs, (get_boxes model (canniedOf fc cn image)).length = 4 ∧
      classesOf (upLstOf fc cn model image) = some classes ∧
      rotatedClassesOf (rotLstOf fc cn model image) = some rcs ∧
      out = reconcile classes rcs) := by
  by_cases hb : (get_boxes model (canniedOf fc cn image)).length = 4
  · cases hc : classesOf (upLstOf fc cn model image) with
    | none =>
      rw [merge_detection_none_of fc cn model image hb hc] at h
      simp at h
    | some classes =>
      cases hr : rotatedClassesOf (rotLstOf fc cn model image) with
      | none => exact absurd hr (rotatedClassesOf_ne_none _)
      | some rcs =>
        rw [merge_detection_some_eq fc cn model image classes rcs hb hc hr] at h
        exact Or.inr ⟨classes, rcs, hb, hc ▸ rfl, hr ▸ rfl, (Option.some_inj.mp h).symm⟩
  · rw [merge_detection_of_boxes_ne fc cn model image hb] at h
    exact Or.inl ⟨hb, (Option.some_inj.mp h).symm⟩

/-! ## Claim theorems -/

/-- C9: for every model and image, `get_boxes` returns exactly the
`(box, classId)` components, in the same order, of the detections returned by
`sort_by_confidence`: the duplicated prune/sort/truncate logic of the two
functions is equivalent. -/
theorem get_boxes_refines_sort_by_confidence (model : Model) (image : Img) :
    get_boxes model image =
      (sort_by_confidence model image).map (fun t => (t.box, t.cls)) := rfl

/-- C8: when the process-wide feature toggle is false, the merger returns an
empty ArrowSequence, and it does so without any invocation of the detection
model — the result is the same under every model oracle. -/
theorem toggle_off_spec (fc cn : Img → Img) (image : Img) :
    (∀ model : Model, merge_detection_enabled false fc cn model image = some []) ∧
    (∀ model1 model2 : Model,
      merge_detection_enabled false fc cn model1 image =
        merge_detection_enabled false fc cn model2 image) :=
  ⟨fun _ => rfl, fun _ _ => rfl⟩

/-- C3: reconciliation preserves length and element order; positions not
holding left/right (in particular up/down) are never altered; the values at
the left/right positions, read left to right, are the successive elements of
`rotatedClasses` while any remain, then the original upright labels (surplus
rotated elements are discarded); and when every rotated label is left or
right (as `converter` guarantees in the merger), the replaced positions again
hold left or right. -/
theorem reconcile_spec (cs rot : List String) :
    (reconcile cs rot).length = cs.length ∧
    (∀ i : ℕ, ¬(cs[i]? = some "left" ∨ cs[i]? = some "right") →
      (reconcile cs rot)[i]? = cs[i]?) ∧
    ((cs.zip (reconcile cs rot)).filter
        (fun p => decide (p.1 = "left" ∨ p.1 = "right"))).map Prod.snd
      = rot.take (ambiguousOf cs).length
        ++ (ambiguousOf cs).drop (min rot.length (ambiguousOf cs).length) ∧
    ((∀ r ∈ rot, r = "left" ∨ r = "right") → ∀ i : ℕ,
      (cs[i]? = some "left" ∨ cs[i]? = some "right") →
      ((reconcile cs rot)[i]? = some "left" ∨
        (reconcile cs rot)[i]? = some "right")) :=
  ⟨reconcile_length cs rot, fun i h => reconcile_get_of_not_amb cs rot i h,
    reconcile_amb_values cs rot, fun hrot i h => reconcile_get_amb cs rot hrot i h⟩

/-- Witness for C3, on the spec's end-to-end scenario A: reconciling
`[up, left, down, right]` with rotated labels `[right]` keeps length 4, keeps
position 0 (`up`) unchanged, and leaves a left/right label at position 1. -/
theorem reconcile_spec_witness :
    (reconcile ["up", "left", "down", "right"] ["right"]).length = 4 ∧
    (reconcile ["up", "left", "down", "right"] ["right"])[0]? = some "up" ∧
    ((reconcile ["up", "left", "down", "right"] ["right"])[1]? = some "left" ∨
      (reconcile ["up", "left", "down", "right"] ["right"])[1]? = some "right") := by
  obtain ⟨h1, h2, _, h4⟩ := reconcile_spec ["up", "left", "down", "right"] ["right"]
  refine ⟨by rw [h1]; rfl, ?_, h4 (by decide) 1 (by decide)⟩
  rw [h2 0 (by decide)]
  decide

/-- C4: the rotated pass sorts the rotated-canvas detections descending by the
box's `yMax` (stably, hence a permutation), keeps exactly the entries with
class id 1 or 2, and maps class 1 to `right` and class 2 to `left`; entries
with any other class id (in particular 3 and 4) never contribute, and the
comprehension never fails. -/
theorem rotated_pass_spec (lst : List Det) :
    (sortYMaxDesc lst).Pairwise yMaxGe ∧
    (sortYMaxDesc lst).Perm lst ∧
    rotatedClassesOf (sortYMaxDesc lst) =
      some (((sortYMaxDesc lst).filter
          (fun d => decide (d.cls = 1 ∨ d.cls = 2))).map
        (fun d => if d.cls = 1 then "right" else "left")) :=
  ⟨List.sorted_insertionSort yMaxGe lst, List.perm_insertionSort yMaxGe lst,
    rotatedClassesOf_eq _⟩

/-- C6: the Detecting retry loop executes at most `max_attempts + 1 = 101`
capture/detect cycles, every cycle before the stopping one produced a
non-length-4 sequence (early stop at the first length-4 result), the final
ArrowSequence is whatever the last executed cycle produced, and the loop ends
either with a length-4 result or with the attempt budget exhausted. -/
theorem retry_loop_spec (att : ℕ → List String) :
    sessionStopIndex att + 1 ≤ max_attempts + 1 ∧
    (∀ m, m < sessionStopIndex att → (att m).length ≠ 4) ∧
    sessionArrows att = att (sessionStopIndex att) ∧
    ((sessionArrows att).length = 4 ∨ sessionStopIndex att = max_attempts) := by
  obtain ⟨h1, h2, h3, h4⟩ := detectLoop_spec att max_attempts 0
  refine ⟨?_, fun m hm => h3 m (Nat.zero_le m) hm, rfl, ?_⟩
  · have hle : sessionStopIndex att ≤ max_attempts := by
      simpa [sessionStopIndex] using h2
    omega
  · simpa [sessionArrows, sessionStopIndex] using h4

/-- Witness for C6: a concrete cycle stream whose first length-4 result is at
index 2; the loop's earlier cycle 1 indeed did not produce 4 arrows, and the
cycle bound holds. -/
theorem retry_loop_spec_witness :
    (attWitness 1).length ≠ 4 ∧
    sessionStopIndex attWitness + 1 ≤ max_attempts + 1 := by
  obtain ⟨h1, h2, _, _⟩ := retry_loop_spec attWitness
  exact ⟨h2 1 (by decide), h1⟩

/-- C2 (amended): every DetectionSet produced by the Box Locator contains only
detections with score above 0.5 (`mkRat 1 2`), has at most 4 elements, and is
sorted descending by score — non-strictly: on a score tie, elements stay in
model-output order, so strict descent does not hold in general (see the
counterexample). -/
theorem sort_by_confidence_spec (model : Model) (image : Img) :
    (∀ d ∈ sort_by_confidence model image, mkRat 1 2 < d.score) ∧
    (sort_by_confidence model image).length ≤ 4 ∧
    (sort_by_confidence model image).Pairwise scoreGe :=
  ⟨sort_by_confidence_mem_score model image,
    sort_by_confidence_length_le model image,
    sort_by_confidence_pairwise model image⟩

/-- Counterexample for C2 as stated: under a model returning two detections
with equal scores, the Box Locator output is not strictly score-descending. -/
theorem sort_by_confidence_strict_cex :
    sort_by_confidence cexModelTie cexImg = [⟨1, boxX 0, 1⟩, ⟨1, boxX 1, 2⟩] ∧
    ¬(sort_by_confidence cexModelTie cexImg).Pairwise
      (fun a b => b.score < a.score) := by
  refine ⟨rfl, ?_⟩
  intro h
  rw [show sort_by_confidence cexModelTie cexImg
    = [⟨1, boxX 0, 1⟩, ⟨1, boxX 1, 2⟩] from rfl] at h
  simp [List.pairwise_cons] at h

/-- Witness for C2: the amended theorem applied to a concrete model output. -/
theorem sort_by_confidence_spec_witness :
    mkRat 1 2 < (1 : ℚ) ∧ (sort_by_confidence cexModelTie cexImg).length ≤ 4 := by
  obtain ⟨h1, h2, _⟩ := sort_by_confidence_spec cexModelTie cexImg
  exact ⟨h1 ⟨1, boxX 0, 1⟩ (by decide), h2⟩

/-- C5: the Canvas Normalizer always yields a 455×384 canvas; if and only if
both centering offsets `(455 - cropWidth) // 2` and `(384 - cropHeight) // 2`
(Python floor division) are strictly positive, the crop appears in the canvas
at exactly those offsets with content unchanged (and the rest of the canvas
is the black fill value); if at least one offset is ≤ 0, the whole canvas is
the fill value. -/
theorem padCanvas_spec (runeBox : Img) :
    (padCanvas runeBox).height = 384 ∧ (padCanvas runeBox).width = 455 ∧
    (0 < Int.fdiv (455 - (runeBox.width : ℤ)) 2 ∧
        0 < Int.fdiv (384 - (runeBox.height : ℤ)) 2 →
      (∀ i j, i < runeBox.height → j < runeBox.width →
        (padCanvas runeBox).pix
            ((Int.fdiv (384 - (runeBox.height : ℤ)) 2).toNat + i)
            ((Int.fdiv (455 - (runeBox.width : ℤ)) 2).toNat + j)
          = runeBox.pix i j) ∧
      (∀ i j,
        (i < (Int.fdiv (384 - (runeBox.height : ℤ)) 2).toNat ∨
          (Int.fdiv (384 - (runeBox.height : ℤ)) 2).toNat + runeBox.height ≤ i ∨
          j < (Int.fdiv (455 - (runeBox.width : ℤ)) 2).toNat ∨
          (Int.fdiv (455 - (runeBox.width : ℤ)) 2).toNat + runeBox.width ≤ j) →
        (padCanvas runeBox).pix i j = blackPixel)) ∧
    (¬(0 < Int.fdiv (455 - (runeBox.width : ℤ)) 2 ∧
        0 < Int.fdiv (384 - (runeBox.height : ℤ)) 2) →
      ∀ i j, (padCanvas runeBox).pix i j = blackPixel) := by
  refine ⟨rfl, rfl, ?_, ?_⟩
  · rintro ⟨hx, hy⟩
    constructor
    · intro i j hi hj
      show (if _ ∧ _ ∧ _ ∧ _ ∧ _ ∧ _ then _ else _) = _
      rw [if_pos ⟨hx, hy, Nat.le_add_right _ _, by omega, Nat.le_add_right _ _, by omega⟩]
      simp
    · intro i j hd
      show (if _ ∧ _ ∧ _ ∧ _ ∧ _ ∧ _ then _ else _) = _
      rw [if_neg]
      rintro ⟨-, -, hyl, hyu, hxl, hxu⟩
      omega
  · intro hneg i j
    show (if _ ∧ _ ∧ _ ∧ _ ∧ _ ∧ _ then _ else _) = _
    rw [if_neg]
    rintro ⟨hx, hy, -⟩
    exact hneg ⟨hx, hy⟩

/-- Witness for C5: a 100×100 rune box has offsets 177 and 142, both
positive, and its top-left pixel lands at canvas position (142, 177)
unchanged. -/
theorem padCanvas_spec_witness :
    (padCanvas padWitnessImg).pix 142 177 = (5, 5, 5) := by
  obtain ⟨-, -, hpos, -⟩ := padCanvas_spec padWitnessImg
  have h := (hpos (by decide)).1 0 0 (by decide) (by decide)
  simpa using h

theorem cexRun1 : merge_detection id id cexModel1 cexImg = some ["up", "up"] := rfl

theorem cexRun2 :
    merge_detection id id cexModel2 cexImg
      = some ["up", "down", "left", "right"] := rfl

/-- C1 (amended): a merge result has length at most 4; it is empty whenever
the coarse pass (`get_boxes` on the cannied region) does not find exactly 4
boxes; but when the coarse pass does find 4 boxes, the result length equals
the number of confident detections of the upright pass on the normalized
canvas, which can be 1-3 — there is no length-4 check on that second pass, so
lengths 1-3 do occur (see the counterexample). -/
theorem merge_detection_length (fc cn : Img → Img) (model : Model)
    (image : Img) (out : List String)
    (h : merge_detection fc cn model image = some out) :
    out.length ≤ 4 ∧
    ((get_boxes model (canniedOf fc cn image)).length ≠ 4 → out = []) ∧
    ((get_boxes model (canniedOf fc cn image)).length = 4 →
      out.length = (sort_by_confidence model
        (preprocessedOf model (canniedOf fc cn image))).length) := by
  rcases merge_detection_some_inv fc cn model image out h with
    ⟨hb, rfl⟩ | ⟨classes, rcs, hb, hc, hr, rfl⟩
  · exact ⟨by simp, fun _ => rfl, fun h4 => absurd h4 hb⟩
  · have hlen : (reconcile classes rcs).length = classes.length :=
      reconcile_length _ _
    have hcl : classes.length = (upLstOf fc cn model image).length :=
      classesOf_length _ _ hc
    have hup : (upLstOf fc cn model image).length
        = (sort_by_confidence model
            (preprocessedOf model (canniedOf fc cn image))).length := by
      simp [upLstOf, sortXMinAsc, List.length_insertionSort]
    refine ⟨?_, fun hne => absurd hb hne, fun _ => by rw [hlen, hcl, hup]⟩
    rw [hlen, hcl, hup]
    exact sort_by_confidence_length_le model _

/-- Counterexample for C1 as stated: a concrete run in which the coarse pass
finds 4 boxes but the upright canvas pass finds only 2 detections returns an
ArrowSequence of length 2 — neither 0 nor 4, and not empty. -/
theorem merge_detection_partial_length_cex :
    merge_detection id id cexModel1 cexImg = some ["up", "up"] ∧
    ¬((["up", "up"] : List String).length = 0 ∨
      (["up", "up"] : List String).length = 4) :=
  ⟨cexRun1, by decide⟩

/-- Witness for C1 (amended), on the concrete length-2 run. -/
theorem merge_detection_length_witness :
    (["up", "up"] : List String).length ≤ 4 ∧
    (["up", "up"] : List String).length = (sort_by_confidence cexModel1
      (preprocessedOf cexModel1 (canniedOf id id cexImg))).length := by
  obtain ⟨h1, -, h3⟩ :=
    merge_detection_length id id cexModel1 cexImg ["up", "up"] cexRun1
  exact ⟨h1, h3 (by decide)⟩

/-- C10 (amended): `merge_detection` raises (returns `none`) exactly when the
coarse pass finds 4 boxes and the upright canvas pass keeps a detection whose
class id is outside the label map; the rotated pass never raises — its
out-of-range class ids are filtered out before any lookup (see the
counterexample). -/
theorem merge_detection_raise_iff (fc cn : Img → Img) (model : Model)
    (image : Img) :
    merge_detection fc cn model image = none ↔
      ((get_boxes model (canniedOf fc cn image)).length = 4 ∧
        ∃ d ∈ sort_by_confidence model
            (preprocessedOf model (canniedOf fc cn image)),
          label_map d.cls = none) := by
  rw [merge_detection_none_iff]
  apply and_congr_right
  intro _
  rw [classesOf_none_iff]
  constructor
  · rintro ⟨d, hd, hlm⟩
    rw [upLstOf, sortXMinAsc] at hd
    exact ⟨d, (List.mem_insertionSort xMinLe).mp hd, hlm⟩
  · rintro ⟨d, hd, hlm⟩
    refine ⟨d, ?_, hlm⟩
    rw [upLstOf, sortXMinAsc]
    exact (List.mem_insertionSort xMinLe).mpr hd

/-- Counterexample for C10 as stated: a concrete run in which the rotated
canvas pass keeps one detection with class id 7 (outside the label map), yet
the merger returns a result instead of raising — the rotated comprehension
filters on class id before any lookup. -/
theorem merge_detection_rotated_class_cex :
    merge_detection id id cexModel2 cexImg
      = some ["up", "down", "left", "right"] ∧
    (sort_by_confidence cexModel2 (rotate90ccw (preprocessedOf cexModel2
      (canniedOf id id cexImg)))).map Det.cls = [7] ∧
    label_map 7 = none :=
  ⟨cexRun2, rfl, rfl⟩

theorem merge_detection_mem (fc cn : Img → Img) (model : Model) (image : Img)
    (out : List String) (h : merge_detection fc cn model image = some out) :
    ∀ s ∈ out, s = "up" ∨ s = "down" ∨ s = "left" ∨ s = "right" := by
  rcases merge_detection_some_inv fc cn model image out h with
    ⟨-, rfl⟩ | ⟨classes, rcs, -, hc, hr, rfl⟩
  · simp
  · intro s hs
    rcases reconcile_mem classes rcs s hs with hs | hs
    · exact classesOf_mem _ _ hc s hs
    · rcases rotatedClassesOf_mem _ _ hr s hs with h1 | h1
      · exact Or.inr (Or.inr (Or.inl h1))
      · exact Or.inr (Or.inr (Or.inr h1))

theorem mapM_firstChar_of_nonempty : ∀ out : List String,
    (∀ s ∈ out, s.data ≠ []) →
    out.mapM firstChar = some (out.filterMap (fun s => s.data.head?)) := by
  intro out
  induction out with
  | nil => intro _; rfl
  | cons s ss ih =>
    intro h
    have hs : s.data ≠ [] := h s (by simp)
    obtain ⟨c, hc⟩ : ∃ c, s.data.head? = some c := by
      cases hd : s.data with
      | nil => exact absurd hd hs
      | cons a l => exact ⟨a, by simp [hd]⟩
    have ihs := ih (fun x hx => h x (by simp [hx]))
    rw [List.mapM_cons, ihs, List.filterMap_cons]
    simp [firstChar, hc]

/-- C7: for every session outcome (a merge result), the server produces
exactly two framed lines: the first is the concatenation of the first letters
of the four direction labels exactly when the final ArrowSequence has length
4, and the literal sentinel `err` for every other length; the second is the
fixed closing marker. -/
theorem session_messages_spec (fc cn : Img → Img) (model : Model)
    (image : Img) (out : List String)
    (h : merge_detection fc cn model image = some out) :
    ∃ msgs, sessionMessages out = some msgs ∧ msgs.length = 2 ∧
      msgs[1]? = some "Closing connection" ∧
      (out.length = 4 →
        msgs[0]? = some (String.mk (out.filterMap (fun s => s.data.head?)))) ∧
      (out.length ≠ 4 → msgs[0]? = some "err") := by
  have hne : ∀ s ∈ out, s.data ≠ [] := by
    intro s hs
    rcases merge_detection_mem fc cn model image out h s hs with h1 | h1 | h1 | h1 <;>
      rw [h1] <;> decide
  by_cases h4 : out.length = 4
  · refine ⟨[String.mk (out.filterMap (fun s => s.data.head?)),
      "Closing connection"], ?_, rfl, by simp, fun _ => by simp [String.mk],
      fun hn => absurd h4 hn⟩
    rw [sessionMessages, responseLine, if_pos h4,
      mapM_firstChar_of_nonempty out hne]
    rfl
  · refine ⟨["err", "Closing connection"], ?_, rfl, by simp,
      fun hc => absurd hc h4, fun _ => by simp⟩
    rw [sessionMessages, responseLine, if_neg h4]
    rfl

/-- Witness for C7, on the concrete length-4 run: the two lines are `udlr`
and the closing marker. -/
theorem session_messages_spec_witness :
    ∃ msgs, sessionMessages ["up", "down", "left", "right"] = some msgs ∧
      msgs[0]? = some "udlr" ∧ msgs[1]? = some "Closing connection" := by
  obtain ⟨msgs, h1, -, h3, h4, -⟩ := session_messages_spec id id cexModel2
    cexImg ["up", "down", "left", "right"] cexRun2
  refine ⟨msgs, h1, ?_, h3⟩
  rw [h4 (by decide)]
  rfl

end MSbot
